import Mathlib

/-!
Verification of the documindr ingestion-and-retrieval pipeline.

Shallow embedding of the core Python modules:
  app/domain/documents/splitter.py   (choose_chunk_size, split_documents)
  app/domain/rag/retrieval.py        (fix_percent_spacing, hybrid_search, extract_sources)
  app/domain/rag/streaming.py        (stream_rag)
  app/domain/uploads/processor.py    (sanitize_filename, validate_extension, process_upload)
  app/infra/database/queries.py      (get_document_by_hash, insert_document,
                                      insert_document_chunks, mark_document_completed,
                                      batch_embed, index_chunks)

Python strings are modelled as Lean `String` (length counts characters, as
Python `len` does); character classes (`\w`, `\s`, `str.strip`) are modelled
over their ASCII fragment.  Python float expressions `int(base * 0.8)`,
`int(base * 0.6)` and the comparison `len <= size * 0.8` are modelled by the
exact rational values (`base * 4 / 5` in natural division, `5 * len ≤ 4 * size`),
which agree with the IEEE evaluation on the whole practically reachable range.
External collaborators (the embedding model, the recursive character splitter,
the BM25 re-ranker, the generation model) are function parameters, as the spec
treats them.
-/

set_option linter.unusedVariables false

namespace Documindr

/-! ## Python dict values, restricted to the value shapes the code stores -/

inductive MVal where
  | s (v : String)
  | n (v : Nat)
deriving DecidableEq, Repr

/-- A Python dict with string keys, modelled as an update list: the most
recent binding of a key is the first entry naming it. -/
abbrev Metadata := List (String × MVal)

/-- `m.get(k)` / `m[k]`: first binding wins (later `mset` bindings are put in
front, matching dict update semantics for lookups). -/
def mget (m : Metadata) (k : String) : Option MVal :=
  (m.find? (fun p => p.1 = k)).map (·.2)

/-- `m[k] = v`. -/
def mset (m : Metadata) (k : String) (v : MVal) : Metadata :=
  (k, v) :: m

/-- `langchain_core.documents.Document`: the loaded/split unit of text. -/
structure Doc where
  page_content : String
  metadata : Metadata
deriving DecidableEq, Repr

/-! ## Python string helpers -/

/-- ASCII fragment of Python str whitespace (`str.strip` default set, `\s`). -/
def pyIsSpace (c : Char) : Bool :=
  c = ' ' || c = '\t' || c = '\n' || c = '\r' || c = '\x0b' || c = '\x0c'

/-- Python `str.strip()`. -/
def pyStrip (s : String) : String :=
  ⟨((s.data.dropWhile pyIsSpace).reverse.dropWhile pyIsSpace).reverse⟩

/-! ## splitter.py -/

/-- `choose_chunk_size(length, base)` from app/domain/documents/splitter.py.
`int(base * 0.8)` and `int(base * 0.6)` are modelled exactly as
`base * 4 / 5` and `base * 3 / 5` (truncating division). -/
def choose_chunk_size (length : Nat) (base : Nat) : Nat :=
  if length < 2000 then max (base * 4 / 5) 300
  else if length < 10000 then base
  else max (base * 3 / 5) 400

/-- `split_documents(docs, base_chunk_size, overlap, min_chars)` from
app/domain/documents/splitter.py.  `splitterF size overlap d` stands for
`RecursiveCharacterTextSplitter(chunk_size=size, chunk_overlap=overlap, ...)
.split_documents([d])`, an external library call.  The Python early returns
on `not docs` / `not filtered` coincide with the empty flatMap. -/
def split_documents (splitterF : Nat → Nat → Doc → List Doc)
    (docs : List Doc) (base_chunk_size overlap min_chars : Nat) : List Doc :=
  let filtered :=
    (docs.map (fun d => { d with page_content := pyStrip d.page_content })).filter
      (fun d => min_chars ≤ d.page_content.length)
  filtered.flatMap (fun d =>
    let size := choose_chunk_size d.page_content.length base_chunk_size
    if 5 * d.page_content.length ≤ 4 * size then [d]
    else splitterF size overlap d)

theorem split_documents_append (splitterF : Nat → Nat → Doc → List Doc)
    (xs ys : List Doc) (b o m : Nat) :
    split_documents splitterF (xs ++ ys) b o m =
      split_documents splitterF xs b o m ++ split_documents splitterF ys b o m := by
  simp [split_documents]

theorem split_documents_singleton_pass (splitterF : Nat → Nat → Doc → List Doc)
    (d : Doc) (b o m : Nat)
    (hmin : m ≤ (pyStrip d.page_content).length)
    (hsmall : 5 * (pyStrip d.page_content).length ≤
      4 * choose_chunk_size (pyStrip d.page_content).length b) :
    split_documents splitterF [d] b o m =
      [{ d with page_content := pyStrip d.page_content }] := by
  simp [split_documents, hmin, hsmall]

theorem split_documents_singleton_drop (splitterF : Nat → Nat → Doc → List Doc)
    (d : Doc) (b o m : Nat)
    (hmin : (pyStrip d.page_content).length < m) :
    split_documents splitterF [d] b o m = [] := by
  simp [split_documents, Nat.not_le.mpr hmin]

/-- C4: `choose_chunk_size` is a three-band step function of input length:
below 2000 it returns `max (base * 4 / 5) 300`, between 2000 and 10000 it
returns `base`, from 10000 on it returns `max (base * 3 / 5) 400`; for
`base = 800`: length 500 gives at least 300, length 3000 gives exactly 800,
length 20000 gives at least 400. -/
theorem claim_C4 :
    (∀ l b : Nat, l < 2000 → choose_chunk_size l b = max (b * 4 / 5) 300) ∧
    (∀ l b : Nat, 2000 ≤ l → l < 10000 → choose_chunk_size l b = b) ∧
    (∀ l b : Nat, 10000 ≤ l → choose_chunk_size l b = max (b * 3 / 5) 400) ∧
    300 ≤ choose_chunk_size 500 800 ∧
    choose_chunk_size 3000 800 = 800 ∧
    400 ≤ choose_chunk_size 20000 800 := by
  refine ⟨fun l b h => ?_, fun l b h1 h2 => ?_, fun l b h => ?_, by decide, by decide, by decide⟩
  · simp [choose_chunk_size, h]
  · simp [choose_chunk_size, Nat.not_lt.mpr h1, h2]
  · have h1 : ¬ l < 2000 := by omega
    have h2 : ¬ l < 10000 := by omega
    simp [choose_chunk_size, h1, h2]

theorem claim_C4_witness : choose_chunk_size 1999 800 = max (800 * 4 / 5) 300 :=
  claim_C4.1 1999 800 (by decide)

/-- C5: in `split_documents`, a unit whose trimmed text has length at least
`min_chars` and at most 0.8 times its chosen target chunk size is emitted
unchanged as exactly one chunk (its trimmed text, its original metadata),
regardless of its surroundings; a unit below `min_chars` after trimming is
dropped entirely. -/
theorem claim_C5 (splitterF : Nat → Nat → Doc → List Doc)
    (pre post : List Doc) (d : Doc) (b o m : Nat) :
    ((m ≤ (pyStrip d.page_content).length ∧
        5 * (pyStrip d.page_content).length ≤
          4 * choose_chunk_size (pyStrip d.page_content).length b) →
      split_documents splitterF (pre ++ d :: post) b o m =
        split_documents splitterF pre b o m ++
          { d with page_content := pyStrip d.page_content } ::
            split_documents splitterF post b o m) ∧
    ((pyStrip d.page_content).length < m →
      split_documents splitterF (pre ++ d :: post) b o m =
        split_documents splitterF pre b o m ++ split_documents splitterF post b o m) := by
  constructor
  · rintro ⟨hmin, hsmall⟩
    have h : pre ++ d :: post = pre ++ [d] ++ post := by simp
    rw [h, split_documents_append, split_documents_append,
      split_documents_singleton_pass splitterF d b o m hmin hsmall]
    simp
  · intro hmin
    have h : pre ++ d :: post = pre ++ [d] ++ post := by simp
    rw [h, split_documents_append, split_documents_append,
      split_documents_singleton_drop splitterF d b o m hmin]
    simp

theorem claim_C5_witness :
    split_documents (fun _ _ x => [x]) ([] ++ ⟨"abcdefghij", []⟩ :: []) 800 100 5 =
      split_documents (fun _ _ x => [x]) [] 800 100 5 ++
        { page_content := pyStrip "abcdefghij", metadata := ([] : Metadata) } ::
          split_documents (fun _ _ x => [x]) [] 800 100 5 :=
  (claim_C5 (fun _ _ x => [x]) [] [] ⟨"abcdefghij", []⟩ 800 100 5).1 (by decide)

/-! ## retrieval.py: fix_percent_spacing

`re.sub(r"(\d+)\s+%", r"\1%", text)` scans left to right; at a given start
position the pattern matches exactly when a nonempty maximal digit run is
followed by a nonempty whitespace run followed by a literal percent sign
(greedy matching cannot trade characters between the classes).  After a
match, scanning resumes after the matched percent sign. -/

/-- Try to match `(\d+)\s+%` at the head of `l`; on success return the digit
run and the remainder after the percent sign. -/
def matchPercent (l : List Char) : Option (List Char × List Char) :=
  if (l.takeWhile Char.isDigit) = [] then none
  else if ((l.dropWhile Char.isDigit).takeWhile pyIsSpace) = [] then none
  else
    match (l.dropWhile Char.isDigit).dropWhile pyIsSpace with
    | '%' :: rem => some (l.takeWhile Char.isDigit, rem)
    | _ => none

theorem matchPercent_rem_lt (l ds rem : List Char)
    (h : matchPercent l = some (ds, rem)) : rem.length < l.length := by
  unfold matchPercent at h
  split at h
  · exact absurd h (by simp)
  · split at h
    · exact absurd h (by simp)
    · split at h
      · rename_i rem0 heq
        simp only [Option.some.injEq, Prod.mk.injEq] at h
        obtain ⟨h4, h5⟩ := h
        subst h5
        have h1 : ('%' :: rem0).length ≤ (l.dropWhile Char.isDigit).length := by
          rw [← heq]
          exact (List.dropWhile_suffix pyIsSpace).length_le
        have h2 : (l.dropWhile Char.isDigit).length ≤ l.length :=
          (List.dropWhile_suffix Char.isDigit).length_le
        simp at h1
        omega
      · exact absurd h (by simp)

/-- The scanning loop of `re.sub(r"(\d+)\s+%", r"\1%", text)`. -/
def fixAux : List Char → List Char
  | [] => []
  | c :: rest =>
    match h : matchPercent (c :: rest) with
    | some (ds, rem) => ds ++ '%' :: fixAux rem
    | none => c :: fixAux rest
termination_by l => l.length
decreasing_by
  · exact matchPercent_rem_lt _ _ _ h
  · simp

/-- `fix_percent_spacing(text)` from app/domain/rag/retrieval.py. -/
def fix_percent_spacing (s : String) : String := ⟨fixAux s.data⟩

/-- `True` when the pattern `(\d+)\s+%` matches somewhere in `l`. -/
def hasPercentPattern : List Char → Bool
  | [] => false
  | c :: rest => (matchPercent (c :: rest)).isSome || hasPercentPattern rest

theorem fixAux_of_no_pattern (l : List Char) (h : hasPercentPattern l = false) :
    fixAux l = l := by
  induction l with
  | nil => simp [fixAux]
  | cons c rest ih =>
    rw [hasPercentPattern] at h
    simp only [Bool.or_eq_false_iff] at h
    rw [fixAux]
    split
    · rename_i heq
      rw [heq] at h
      simp at h
    · exact congrArg (c :: ·) (ih h.2)

theorem fixAux_cons_of_match (c : Char) (rest ds rem : List Char)
    (hm : matchPercent (c :: rest) = some (ds, rem)) :
    fixAux (c :: rest) = ds ++ '%' :: fixAux rem := by
  rw [fixAux]
  split
  · rename_i ds2 rem2 heq
    rw [hm] at heq
    simp only [Option.some.injEq, Prod.mk.injEq] at heq
    rw [heq.1, heq.2]
  · rename_i heq
    rw [hm] at heq
    cases heq

theorem pyIsSpace_not_digit (c : Char) (h : pyIsSpace c = true) :
    Char.isDigit c = false := by
  simp only [pyIsSpace, Bool.or_eq_true, decide_eq_true_eq] at h
  rcases h with ((((h | h) | h) | h) | h) | h <;> subst h <;> decide

theorem matchPercent_occurrence (ds ws rest : List Char)
    (hds : ds ≠ []) (hdsall : ∀ c ∈ ds, Char.isDigit c = true)
    (hws : ws ≠ []) (hwsall : ∀ c ∈ ws, pyIsSpace c = true) :
    matchPercent (ds ++ ws ++ '%' :: rest) = some (ds, rest) := by
  obtain ⟨w0, ws2, rfl⟩ : ∃ w0 ws2, ws = w0 :: ws2 := by
    cases ws with
    | nil => exact absurd rfl hws
    | cons a l => exact ⟨a, l, rfl⟩
  have hw0 : pyIsSpace w0 = true := hwsall w0 (by simp)
  have hw0d : ¬ (Char.isDigit w0 = true) := by
    rw [pyIsSpace_not_digit w0 hw0]; simp
  have hpc : ¬ (pyIsSpace '%' = true) := by decide
  have htd : List.takeWhile Char.isDigit (ds ++ (w0 :: ws2) ++ '%' :: rest) = ds := by
    rw [List.append_assoc, List.takeWhile_append, List.takeWhile_eq_self_iff.mpr hdsall]
    simp [List.takeWhile_cons_of_neg hw0d]
  have hdd : List.dropWhile Char.isDigit (ds ++ (w0 :: ws2) ++ '%' :: rest) =
      (w0 :: ws2) ++ '%' :: rest := by
    rw [List.append_assoc, List.dropWhile_append, List.dropWhile_eq_nil_iff.mpr hdsall]
    simp [List.dropWhile_cons_of_neg hw0d]
  have hts : List.takeWhile pyIsSpace ((w0 :: ws2) ++ '%' :: rest) = w0 :: ws2 := by
    rw [List.takeWhile_append, List.takeWhile_eq_self_iff.mpr hwsall]
    simp [List.takeWhile_cons_of_neg hpc]
  have hdsp : List.dropWhile pyIsSpace ((w0 :: ws2) ++ '%' :: rest) = '%' :: rest := by
    rw [List.dropWhile_append, List.dropWhile_eq_nil_iff.mpr hwsall]
    simp [List.dropWhile_cons_of_neg hpc]
  unfold matchPercent
  rw [htd, hdd, hts, hdsp]
  simp [hds]

theorem fixAux_rewrite (ds ws rest : List Char)
    (hds : ds ≠ []) (hdsall : ∀ c ∈ ds, Char.isDigit c = true)
    (hws : ws ≠ []) (hwsall : ∀ c ∈ ws, pyIsSpace c = true) :
    fixAux (ds ++ ws ++ '%' :: rest) = ds ++ '%' :: fixAux rest := by
  cases ds with
  | nil => exact absurd rfl hds
  | cons d0 ds2 =>
    have hm := matchPercent_occurrence (d0 :: ds2) ws rest hds hdsall hws hwsall
    rw [List.cons_append, List.cons_append] at hm
    rw [List.cons_append, List.cons_append]
    exact fixAux_cons_of_match d0 _ _ _ hm

/-- C7: `fix_percent_spacing` rewrites every occurrence of one-or-more digits
followed by whitespace followed by a literal percent sign into the digits
immediately followed by the percent sign; the strings of the spec behave as
stated and a text with no occurrence of the pattern is returned unchanged. -/
theorem claim_C7 :
    fix_percent_spacing "50 %" = "50%" ∧
    fix_percent_spacing "100% already correct" = "100% already correct" ∧
    (∀ ds ws rest : List Char, ds ≠ [] → (∀ c ∈ ds, Char.isDigit c = true) →
      ws ≠ [] → (∀ c ∈ ws, pyIsSpace c = true) →
      fixAux (ds ++ ws ++ '%' :: rest) = ds ++ '%' :: fixAux rest) ∧
    (∀ s : String, hasPercentPattern s.data = false → fix_percent_spacing s = s) := by
  have hnil : fixAux [] = [] := by rw [fixAux]
  have hnp : ∀ s : String, hasPercentPattern s.data = false → fix_percent_spacing s = s := by
    intro s h
    unfold fix_percent_spacing
    rw [fixAux_of_no_pattern s.data h]
  refine ⟨?_, hnp _ (by decide), fixAux_rewrite, hnp⟩
  unfold fix_percent_spacing
  have hdata : "50 %".data = ['5', '0'] ++ [' '] ++ '%' :: [] := rfl
  rw [hdata, fixAux_rewrite ['5', '0'] [' '] [] (by decide) (by decide) (by decide) (by decide),
    hnil]
  rfl

theorem claim_C7_witness : fix_percent_spacing "no percents here" = "no percents here" :=
  claim_C7.2.2.2 "no percents here" (by decide)

/-! ## processor.py: sanitize_filename -/

/-- Python `name.replace("..", "")`: scan left to right, drop each
non-overlapping occurrence of two consecutive dots, continue after it. -/
def removeDotDot : List Char → List Char
  | '.' :: '.' :: l => removeDotDot l
  | c :: l => c :: removeDotDot l
  | [] => []

/-- Python `name.replace(a, b)` for one-character `a` and `b`. -/
def replaceChar (a b : Char) : List Char → List Char :=
  List.map (fun c => if c = a then b else c)

/-- The character class `[\w\s.-]` of `re.sub` in `sanitize_filename`
(ASCII fragment: word characters, whitespace, dot, hyphen). -/
def isSafeChar (c : Char) : Bool :=
  c.isAlphanum || c = '_' || pyIsSpace c || c = '.' || c = '-'

/-- `sanitize_filename(name)` from app/domain/uploads/processor.py:
strip, drop `..` occurrences, replace both path separators by underscores,
delete characters outside the safe class, truncate to 255 characters. -/
def sanitize_filename (s : String) : String :=
  ⟨((replaceChar '\\' '_'
      (replaceChar '/' '_'
        (removeDotDot (pyStrip s).data))).filter isSafeChar).take 255⟩

/-- `True` when the list contains two consecutive dots. -/
def hasDotDot : List Char → Bool
  | '.' :: '.' :: _ => true
  | _ :: l => hasDotDot l
  | [] => false

/-- C9, counterexample: on the input `.@.` the character-class filter runs
after the `..` removal and glues the two outer dots together, so the
sanitized name is exactly the path-traversal sequence `..`. -/
theorem claim_C9_counterexample :
    sanitize_filename ".@." = ".." ∧ hasDotDot (sanitize_filename ".@.").data = true := by
  constructor <;> decide

/-- C9, amended: `sanitize_filename` always returns at most 255 characters,
drawn from the safe class (word characters, whitespace, dot, hyphen); in
particular no path separator survives.  The claimed absence of `..`
substrings does not hold (see the counterexample). -/
theorem claim_C9 (s : String) :
    (sanitize_filename s).length ≤ 255 ∧
    (∀ c, c ∈ (sanitize_filename s).data →
      isSafeChar c = true ∧ c ≠ '/' ∧ c ≠ '\\') := by
  constructor
  · show (List.take 255 _).length ≤ 255
    simp [List.length_take]
  · intro c hc
    have hmem : c ∈ (replaceChar '\\' '_'
        (replaceChar '/' '_' (removeDotDot (pyStrip s).data))).filter isSafeChar :=
      List.take_subset 255 _ hc
    have hsafe : isSafeChar c = true := (List.mem_filter.mp hmem).2
    refine ⟨hsafe, ?_, ?_⟩
    · intro h
      rw [h] at hsafe
      exact absurd hsafe (by decide)
    · intro h
      rw [h] at hsafe
      exact absurd hsafe (by decide)

theorem claim_C9_witness :
    isSafeChar 'a' = true ∧ 'a' ≠ '/' ∧ 'a' ≠ '\\' :=
  (claim_C9 "a.txt").2 'a' (by decide)

/-! ## retrieval.py: extract_sources -/

/-- `os.path.basename` on a POSIX path: everything after the last slash. -/
def basename (s : String) : String :=
  ⟨(s.data.reverse.takeWhile (fun c => !(c == '/'))).reverse⟩

/-- Python `str(v)` for the stored metadata values. -/
def mvalStr : MVal → String
  | .s v => v
  | .n v => toString v

/-- Python truthiness of a metadata value. -/
def mvalTruthy : MVal → Bool
  | .s v => v != ""
  | .n v => v != 0

/-- Python `int(v)` with the surrounding `try: ... except: 0`. -/
def mvalToNat : MVal → Nat
  | .n v => v
  | .s v => v.toNat?.getD 0

/-- `extract_sources(chunks)` from app/domain/rag/retrieval.py.  Note the
lookup key for the chunk index is the camel-case `chunkIndex`. -/
def extract_sources (chunks : List Doc) : List String :=
  chunks.map (fun c =>
    let sourceV := (mget c.metadata "source").getD (.s "")
    let name := if mvalTruthy sourceV then basename (mvalStr sourceV) else "unknown"
    let page := mvalToNat ((mget c.metadata "page").getD (.n 0))
    let idx := mvalToNat ((mget c.metadata "chunkIndex").getD (.n 0))
    name ++ ":" ++ toString page ++ ":" ++ toString idx)

/-- C6: a chunk stored by ingestion carries its position under the metadata
key `chunk_index`, but `extract_sources` reads the key `chunkIndex`, which is
never written; the citation token therefore always ends in `:0`, not in the
stored index of the chunk (here 5). -/
theorem claim_C6 :
    extract_sources [⟨"chunk text",
        [("source", MVal.s "/data/doc.pdf"), ("page", MVal.n 2),
         ("chunk_index", MVal.n 5)]⟩] = ["doc.pdf:2:0"] ∧
      ("doc.pdf:2:0" : String) ≠ "doc.pdf:2:5" := by
  constructor <;> decide

/-! ## Store model: the documents and document_chunks tables -/

/-- Embedding vectors; their numeric content is never inspected by the
verified properties, so the float components are modelled as integers. -/
abbrev Vec := List Int

inductive DocStatus where
  | processing
  | completed
deriving DecidableEq, Repr

structure DocRow where
  id : String
  filename : String
  file_type : String
  file_size : Nat
  content_hash : String
  status : DocStatus
deriving DecidableEq, Repr

structure ChunkRow where
  id : String
  document_id : String
  chunk_index : Nat
  content : String
  embedding : Vec
  metadata : Metadata
deriving DecidableEq, Repr

structure Store where
  docs : List DocRow
  chunks : List ChunkRow
deriving DecidableEq, Repr

/-- `get_document_by_hash` from app/infra/database/queries.py. -/
def get_document_by_hash (st : Store) (content_hash : String) : Option String :=
  (st.docs.find? (fun d => d.content_hash = content_hash)).map (·.id)

/-- `insert_document` from queries.py: a new row with status `processing`.
The uuid4 id is an input (`newId`); theorems assume its freshness. -/
def insert_document (st : Store) (newId filename file_type : String)
    (file_size : Nat) (content_hash : String) : Store :=
  { st with docs :=
      st.docs ++ [⟨newId, filename, file_type, file_size, content_hash, .processing⟩] }

/-- The rows built by `insert_document_chunks`:
`enumerate(zip(chunks, embeddings))` with `metadata["chunk_index"] = chunk_index`.
The per-row uuid4 ids, which no verified property inspects, are derived from
the document id and the position. -/
def chunkRows (document_id : String) (chunks : List Doc)
    (embeddings : List Vec) : List ChunkRow :=
  (chunks.zip embeddings).enum.map (fun p =>
    ⟨document_id ++ ":" ++ toString p.1, document_id, p.1,
      p.2.1.page_content, p.2.2, mset p.2.1.metadata "chunk_index" (.n p.1)⟩)

/-- `insert_document_chunks` from queries.py: one batch insert, returning
the number of rows written. -/
def insert_document_chunks (st : Store) (document_id : String)
    (chunks : List Doc) (embeddings : List Vec) : Nat × Store :=
  ((chunkRows document_id chunks embeddings).length,
    { st with chunks := st.chunks ++ chunkRows document_id chunks embeddings })

/-- `mark_document_completed` from queries.py. -/
def mark_document_completed (st : Store) (document_id : String) : Store :=
  { st with docs := st.docs.map (fun d =>
      if d.id = document_id then { d with status := .completed } else d) }

/-- `SELECT status FROM documents WHERE id = ...`. -/
def statusOf (st : Store) (document_id : String) : Option DocStatus :=
  (st.docs.find? (fun d => d.id = document_id)).map (·.status)

/-- The chunk rows of one document. -/
def chunksFor (st : Store) (document_id : String) : List ChunkRow :=
  st.chunks.filter (fun c => c.document_id = document_id)

/-! ## batch_embed -/

/-- One `model.embed_documents(batch)` call, abstracted: given the sub-batch
index, the attempt index and the sub-batch, the backing model either returns
the vectors or fails. -/
abbrev EmbedOracle := Nat → Nat → List String → Option (List Vec)

/-- The retry loop `for attempt in range(max_retries)` of `batch_embed` for
one sub-batch; `a` is the current attempt index, `fuel` the attempts still
allowed.  Returns the outcome together with the `time.sleep(2 ** attempt)`
durations performed after each failed non-final attempt.  `.ok none` is the
fall-through of an empty `range` (only reachable with `max_retries = 0`):
the loop ends without a break and the sub-batch contributes nothing. -/
def retryFrom (call : Nat → Option (List Vec)) :
    Nat → Nat → Except Unit (Option (List Vec)) × List Nat
  | _, 0 => (.ok none, [])
  | a, fuel + 1 =>
    match call a with
    | some vs => (.ok (some vs), [])
    | none =>
      if fuel = 0 then (.error (), [])
      else
        let r := retryFrom call (a + 1) fuel
        (r.1, 2 ^ a :: r.2)

/-- Structural worker for `toBatches`: each step removes at least one
element, so a fuel of the list length is always enough; the fuel-exhausted
branch is unreachable under `ts.length ≤ fuel` with a positive batch size. -/
def toBatchesGo (bs : Nat) : Nat → List String → List (List String)
  | _, [] => []
  | 0, ts => [ts]
  | fuel + 1, t :: ts => ((t :: ts).take bs) :: toBatchesGo bs fuel ((t :: ts).drop bs)

/-- The sub-batches `texts[i : i + batch_size]` for
`i in range(0, len(texts), batch_size)`.  A zero batch size makes the Python
`range` raise, so that branch is unreachable in the program. -/
def toBatches (bs : Nat) (texts : List String) : List (List String) :=
  match bs with
  | 0 =>
    match texts with
    | [] => []
    | ts => [ts]
  | bs2 + 1 => toBatchesGo (bs2 + 1) texts.length texts

/-- The main loop of `batch_embed` over the sub-batch sequence; `bi` is the
index of the first sub-batch of `batches`.  On a sub-batch error the results
collected so far are discarded and the error propagates. -/
def processBatches (oracle : EmbedOracle) (maxRetries : Nat) :
    List (List String) → Nat → Except Unit (List Vec) × List Nat
  | [], _ => (.ok [], [])
  | b :: rest, bi =>
    match retryFrom (fun a => oracle bi a b) 0 maxRetries with
    | (.error _, sleeps) => (.error (), sleeps)
    | (.ok none, sleeps) =>
      let r := processBatches oracle maxRetries rest (bi + 1)
      (r.1, sleeps ++ r.2)
    | (.ok (some vs), sleeps) =>
      let r := processBatches oracle maxRetries rest (bi + 1)
      (Except.map (fun es => vs ++ es) r.1, sleeps ++ r.2)

/-- `batch_embed(texts, model, batch_size, max_retries)` from queries.py. -/
def batch_embed (texts : List String) (oracle : EmbedOracle)
    (batch_size max_retries : Nat) : Except Unit (List Vec) × List Nat :=
  processBatches oracle max_retries (toBatches batch_size texts) 0

/-! ## index_chunks and process_upload -/

/-- Pipeline stages whose execution the embedding records: invoking the
loader, invoking the splitter, invoking the embedding model. -/
inductive Ev where
  | load
  | chunk
  | embed
deriving DecidableEq, Repr

/-- Success/failure injection for the three database writes of a run; a
failed statement raises DatabaseError and, its transaction not being
committed, leaves the store unchanged. -/
structure DbOracle where
  insertDocOk : Bool
  insertChunksOk : Bool
  markOk : Bool
deriving DecidableEq, Repr

/-- The error taxonomy of app/core/exceptions.py restricted to what the
embedded pipeline raises. -/
inductive AppErr where
  | invalidFileType (msg : String)
  | fileTooLarge
  | documentProcessing
  | databaseError
  | embeddingError
deriving DecidableEq, Repr

/-- `index_chunks` from queries.py: dedup check, document insert, embedding,
chunk insert, completion mark.  The third component records whether the
embedding model was invoked. -/
def index_chunks (st : Store) (newId filename file_type : String)
    (file_size : Nat) (content_hash : String) (chunks : List Doc)
    (oracle : EmbedOracle) (db : DbOracle) :
    Except AppErr (String × Nat) × Store × List Ev :=
  match get_document_by_hash st content_hash with
  | some existing_id => (.ok (existing_id, 0), st, [])
  | none =>
    if db.insertDocOk then
      let st1 := insert_document st newId filename file_type file_size content_hash
      match (batch_embed (chunks.map (·.page_content)) oracle 32 3).1 with
      | .error _ => (.error .embeddingError, st1, [.embed])
      | .ok embeddings =>
        if db.insertChunksOk then
          let r := insert_document_chunks st1 newId chunks embeddings
          if db.markOk then
            (.ok (newId, r.1), mark_document_completed r.2 newId, [.embed])
          else (.error .databaseError, r.2, [.embed])
        else (.error .databaseError, st1, [.embed])
    else (.error .databaseError, st, [])

structure UploadFile where
  filename : Option String
  contents : List Nat
deriving DecidableEq, Repr

/-- `str.lower()` (ASCII fragment). -/
def pyToLower (s : String) : String := ⟨s.data.map Char.toLower⟩

/-- `pathlib.PurePath(name).suffix`: with `i` the position of the last dot
of the base name, `name[i:]` when `0 < i < len(name) - 1`, else empty. -/
def pathSuffix (name : String) : String :=
  match (basename name).data.reverse.findIdx? (fun c => c == '.') with
  | none => ""
  | some r =>
    let base := (basename name).data
    let i := base.length - 1 - r
    if 0 < i ∧ i < base.length - 1 then ⟨base.drop i⟩ else ""

/-- `ALLOWED_EXT` from processor.py. -/
def ALLOWED_EXT : List String := [".txt", ".rtf", ".doc", ".docx", ".pdf", ".ppt", ".pptx"]

/-- `validate_extension` from processor.py. -/
def validate_extension (name : String) : Bool :=
  ALLOWED_EXT.contains (pyToLower (pathSuffix name))

/-- `Path(filename).suffix.lower().lstrip(".") or "unknown"`. -/
def fileTypeOf (name : String) : String :=
  let s : String := ⟨(pyToLower (pathSuffix name)).data.dropWhile (fun c => c == '.')⟩
  if s = "" then "unknown" else s

/-- `process_upload` from app/domain/uploads/processor.py.  External
collaborators are parameters: `hashFn` is `compute_file_hash` over the saved
bytes, `loader` is `load_document`, `splitterF` the recursive character
splitter, `oracle` the embedding model, `db` the write-failure injection and
`newId` the uuid4 used if a document row is created.  The saved file holds
exactly the uploaded bytes, so `actual_file_size` equals the upload size.
The third component records which pipeline stages ran. -/
def process_upload (file : UploadFile) (maxFileSize : Nat)
    (hashFn : List Nat → String) (loader : List Nat → List Doc)
    (splitterF : Nat → Nat → Doc → List Doc)
    (baseChunk overlap minChars : Nat)
    (oracle : EmbedOracle) (db : DbOracle) (newId : String) (st : Store) :
    Except AppErr (String × Nat × String) × Store × List Ev :=
  match file.filename with
  | none => (.error (.invalidFileType "Filename is required."), st, [])
  | some fname =>
    if fname = "" then (.error (.invalidFileType "Filename is required."), st, [])
    else
      let sanitized := sanitize_filename fname
      if !(validate_extension sanitized) then
        (.error (.invalidFileType
          "Only files with extensions .doc, .docx, .pdf, .ppt, .pptx, .rtf, .txt are supported."),
          st, [])
      else if maxFileSize < file.contents.length then (.error .fileTooLarge, st, [])
      else if file.contents.length = 0 then
        (.error (.invalidFileType "File is empty."), st, [])
      else
        let chunks := split_documents splitterF (loader file.contents) baseChunk overlap minChars
        let r := index_chunks st newId sanitized (fileTypeOf sanitized)
          file.contents.length (hashFn file.contents) chunks oracle db
        match r.1 with
        | .ok p => (.ok (p.1, p.2, sanitized), r.2.1, .load :: .chunk :: r.2.2)
        | .error _ => (.error .documentProcessing, r.2.1, .load :: .chunk :: r.2.2)

/-! ## streaming.py: stream_rag, and hybrid_search from retrieval.py -/

/-- `hybrid_search(query, k, document_id)` from retrieval.py: `semantic` is
the stage-1 result of `semantic_search`, `rerank` the external
`BM25Retriever.from_documents(semantic, k).invoke(query)` pass. -/
def hybrid_search (semantic : List Doc) (rerank : List Doc → List Doc) : List Doc :=
  if semantic.isEmpty then [] else rerank semantic

/-- `text.lstrip("\n\r ")`. -/
def lstripNR (s : String) : String :=
  ⟨s.data.dropWhile (fun c => c = '\n' || c = '\r' || c = ' ')⟩

/-- The delta loop of `stream_rag`: empty deltas are skipped, the first
non-empty delta is left-stripped, every forwarded delta goes through
`fix_percent_spacing`. -/
def processDeltas (started : Bool) : List String → List String
  | [] => []
  | t :: rest =>
    if t = "" then processDeltas started rest
    else fix_percent_spacing (if started then t else lstripNR t) :: processDeltas true rest

/-- `stream_rag` from streaming.py, as a function from the retrieval result
and the generation-model delta stream to the yielded strings; the boolean
records whether `model.stream` was invoked. -/
def stream_rag (searchResults : List Doc) (deltas : List String) : List String × Bool :=
  if searchResults.isEmpty then
    (["I cannot find this information in the provided text."], false)
  else (processDeltas false deltas, true)

/-! ## Claim C8: empty retrieval yields exactly the sentinel, no model call -/

/-- C8: `hybrid_search` returns an empty candidate list exactly when the
stage-1 semantic search returned no rows (the BM25 re-rank of a nonempty
candidate set being nonempty), and on an empty candidate list `stream_rag`
yields exactly the fixed sentinel string without invoking the generation
streaming call of the generation model. -/
theorem claim_C8 (semantic : List Doc) (rerank : List Doc → List Doc)
    (deltas : List String)
    (hr : ∀ l : List Doc, l ≠ [] → rerank l ≠ []) :
    (hybrid_search semantic rerank = [] ↔ semantic = []) ∧
    (hybrid_search semantic rerank = [] →
      stream_rag (hybrid_search semantic rerank) deltas =
        (["I cannot find this information in the provided text."], false)) := by
  constructor
  · constructor
    · intro h
      by_cases he : semantic = []
      · exact he
      · exfalso
        have hh : hybrid_search semantic rerank = rerank semantic := by
          simp [hybrid_search, he]
        exact hr semantic he (hh ▸ h)
    · intro h
      subst h
      rfl
  · intro h
    rw [h]
    rfl

theorem claim_C8_witness :
    stream_rag (hybrid_search [] (fun l => l)) ["delta"] =
      (["I cannot find this information in the provided text."], false) :=
  (claim_C8 [] (fun l => l) ["delta"] (fun _ h => h)).2 rfl

/-! ## Claim C10: chunk_index values are 0, ..., n-1 in list order -/

theorem mget_mset (m : Metadata) (k : String) (v : MVal) :
    mget (mset m k v) k = some v := by
  simp [mget, mset, List.find?_cons_of_pos]

theorem chunkRows_map_index (did : String) (chunks : List Doc) (embs : List Vec) :
    (chunkRows did chunks embs).map (·.chunk_index) =
      List.range (chunks.zip embs).length := by
  rw [chunkRows, List.map_map]
  exact List.enum_map_fst (chunks.zip embs)

theorem chunkRows_docid (did : String) (chunks : List Doc) (embs : List Vec) :
    ∀ r ∈ chunkRows did chunks embs, r.document_id = did := by
  intro r hr
  obtain ⟨p, _, rfl⟩ := List.mem_map.mp hr
  rfl

theorem chunkRows_map_content (did : String) (chunks : List Doc) (embs : List Vec)
    (h : chunks.length ≤ embs.length) :
    (chunkRows did chunks embs).map (·.content) = chunks.map (·.page_content) := by
  rw [chunkRows, List.map_map]
  have h1 : ((fun r : ChunkRow => r.content) ∘ (fun p : Nat × (Doc × Vec) =>
      (⟨did ++ ":" ++ toString p.1, did, p.1, p.2.1.page_content, p.2.2,
        mset p.2.1.metadata "chunk_index" (.n p.1)⟩ : ChunkRow))) =
      (fun p : Nat × (Doc × Vec) => p.2.1.page_content) := rfl
  rw [h1]
  have h2 : (fun p : Nat × (Doc × Vec) => p.2.1.page_content) =
      ((fun d : Doc => d.page_content) ∘ Prod.fst ∘ Prod.snd) := rfl
  rw [h2, ← List.map_map, ← List.map_map, List.enum_map_snd,
    List.map_fst_zip chunks embs h]

/-- C10: the rows inserted for a document by `insert_document_chunks` carry
chunk_index values exactly 0, ..., n-1 in chunk-list order, each row
recording the same index in its metadata under the key `chunk_index`, the reported
count is n, and in a store with no prior rows for the document the stored
index set is contiguous from 0 and without duplicates. -/
theorem claim_C10 (st : Store) (document_id : String) (chunks : List Doc)
    (embeddings : List Vec)
    (hlen : embeddings.length = chunks.length)
    (hfresh : ∀ c ∈ st.chunks, c.document_id ≠ document_id) :
    (insert_document_chunks st document_id chunks embeddings).1 = chunks.length ∧
    (chunkRows document_id chunks embeddings).map (·.chunk_index) =
      List.range chunks.length ∧
    (∀ r ∈ chunkRows document_id chunks embeddings,
      mget r.metadata "chunk_index" = some (.n r.chunk_index)) ∧
    (chunksFor (insert_document_chunks st document_id chunks embeddings).2
        document_id).map (·.chunk_index) = List.range chunks.length ∧
    ((chunksFor (insert_document_chunks st document_id chunks embeddings).2
        document_id).map (·.chunk_index)).Nodup := by
  have hziplen : (chunks.zip embeddings).length = chunks.length := by
    rw [List.length_zip, hlen, Nat.min_self]
  have hidx : (chunkRows document_id chunks embeddings).map (·.chunk_index) =
      List.range chunks.length := by
    rw [chunkRows_map_index, hziplen]
  have hchunksFor : chunksFor (insert_document_chunks st document_id chunks
      embeddings).2 document_id = chunkRows document_id chunks embeddings := by
    show (st.chunks ++ chunkRows document_id chunks embeddings).filter _ = _
    rw [List.filter_append]
    have h1 : st.chunks.filter (fun c => c.document_id = document_id) = [] := by
      rw [List.filter_eq_nil_iff]
      intro c hc
      simp [hfresh c hc]
    have h2 : (chunkRows document_id chunks embeddings).filter
        (fun c => c.document_id = document_id) =
        chunkRows document_id chunks embeddings := by
      rw [List.filter_eq_self]
      intro c hc
      simp [chunkRows_docid document_id chunks embeddings c hc]
    rw [h1, h2, List.nil_append]
  refine ⟨?_, hidx, ?_, ?_, ?_⟩
  · show (chunkRows document_id chunks embeddings).length = chunks.length
    have := congrArg List.length hidx
    simpa using this
  · intro r hr
    obtain ⟨p, _, rfl⟩ := List.mem_map.mp hr
    exact mget_mset _ _ _
  · rw [hchunksFor, hidx]
  · rw [hchunksFor, hidx]
    exact List.nodup_range chunks.length

theorem claim_C10_witness :
    (chunkRows "d" [⟨"alpha", []⟩, ⟨"beta", []⟩] [[1], [2]]).map (·.chunk_index) =
      List.range 2 :=
  (claim_C10 ⟨[], []⟩ "d" [⟨"alpha", []⟩, ⟨"beta", []⟩] [[1], [2]]
    (by decide) (by simp)).2.1

/-! ## Claim C3: sub-batching, bounded retry with exponential backoff -/

theorem toBatchesGo_join (bs : Nat) :
    ∀ fuel ts, ts.length ≤ fuel → (toBatchesGo (bs + 1) fuel ts).flatten = ts := by
  intro fuel
  induction fuel with
  | zero =>
    intro ts h
    have : ts = [] := List.eq_nil_of_length_eq_zero (Nat.le_zero.mp h)
    subst this
    simp [toBatchesGo]
  | succ f ih =>
    intro ts h
    match ts with
    | [] => simp [toBatchesGo]
    | t :: ts2 =>
      rw [toBatchesGo]
      simp only [List.flatten_cons]
      rw [ih _ (by have h2 := h; simp at h2 ⊢; omega)]
      exact List.take_append_drop _ _

theorem toBatches_join (bs : Nat) (texts : List String) :
    (toBatches (bs + 1) texts).flatten = texts :=
  toBatchesGo_join bs texts.length texts (Nat.le_refl _)

theorem toBatchesGo_mem (bs : Nat) :
    ∀ fuel ts, ts.length ≤ fuel →
      ∀ b ∈ toBatchesGo (bs + 1) fuel ts, b.length ≤ bs + 1 ∧ b ≠ [] := by
  intro fuel
  induction fuel with
  | zero =>
    intro ts h b hb
    have : ts = [] := List.eq_nil_of_length_eq_zero (Nat.le_zero.mp h)
    subst this
    simp [toBatchesGo] at hb
  | succ f ih =>
    intro ts h b hb
    match ts with
    | [] => simp [toBatchesGo] at hb
    | t :: ts2 =>
      rw [toBatchesGo] at hb
      rcases List.mem_cons.mp hb with hh | hh
      · subst hh
        constructor
        · exact List.length_take_le (bs + 1) (t :: ts2)
        · simp [List.take_cons]
      · exact ih _ (by have h2 := h; simp at h2 ⊢; omega) b hh

theorem toBatches_mem (bs : Nat) (texts : List String) :
    ∀ b ∈ toBatches (bs + 1) texts, b.length ≤ bs + 1 ∧ b ≠ [] :=
  toBatchesGo_mem bs texts.length texts (Nat.le_refl _)

theorem retryFrom_ok (call : Nat → Option (List Vec)) :
    ∀ a0 a fuel vs, a0 < fuel → (∀ b, b < a0 → call (a + b) = none) →
      call (a + a0) = some vs →
      retryFrom call a fuel =
        (.ok (some vs), (List.range a0).map (fun k => 2 ^ (a + k))) := by
  intro a0
  induction a0 with
  | zero =>
    intro a fuel vs hf hnone hcall
    match fuel, hf with
    | fuel + 1, _ =>
      rw [retryFrom]
      rw [show a + 0 = a from rfl] at hcall
      rw [hcall]
      simp
  | succ k ih =>
    intro a fuel vs hf hnone hcall
    match fuel, hf with
    | fuel + 1, _ =>
      have h0 : call a = none := by
        have := hnone 0 (Nat.succ_pos k)
        simpa using this
      have hfuel : fuel ≠ 0 := by omega
      rw [retryFrom, h0]
      simp only [hfuel, if_false, ite_false]
      have hrec := ih (a + 1) fuel vs (by omega)
        (fun b hb => by
          have := hnone (b + 1) (by omega)
          simpa [Nat.add_assoc, Nat.add_comm 1 b] using this)
        (by
          have : a + 1 + k = a + (k + 1) := by omega
          rw [this]
          exact hcall)
      rw [hrec]
      simp only [Prod.mk.injEq, true_and]
      rw [List.range_succ_eq_map]
      simp only [List.map_cons, List.map_map]
      congr 1
      apply List.map_congr_left
      intro x hx
      simp only [Function.comp_apply]
      congr 1
      omega

theorem retryFrom_fail (call : Nat → Option (List Vec)) (a : Nat)
    (h : ∀ b, b < 3 → call (a + b) = none) :
    retryFrom call a 3 = (.error (), [2 ^ a, 2 ^ (a + 1)]) := by
  have h0 : call a = none := by simpa using h 0 (by omega)
  have h1 : call (a + 1) = none := h 1 (by omega)
  have h2 : call (a + 2) = none := h 2 (by omega)
  show retryFrom call a (2 + 1) = _
  rw [retryFrom, h0]
  simp only [Nat.succ_ne_zero, ite_false, if_false]
  have : retryFrom call (a + 1) 2 = (.error (), [2 ^ (a + 1)]) := by
    show retryFrom call (a + 1) (1 + 1) = _
    rw [retryFrom, h1]
    simp only [Nat.one_ne_zero, ite_false, if_false]
    have : retryFrom call (a + 1 + 1) 1 = (.error (), []) := by
      show retryFrom call (a + 1 + 1) (0 + 1) = _
      rw [retryFrom]
      have : call (a + 1 + 1) = none := by
        rw [show a + 1 + 1 = a + 2 from by omega]
        exact h2
      rw [this]
      simp
    rw [this]
  rw [this]

theorem retryFrom_no_fallthrough (call : Nat → Option (List Vec)) :
    ∀ fuel a, fuel ≠ 0 → (retryFrom call a fuel).1 ≠ .ok none := by
  intro fuel
  induction fuel with
  | zero => intro a h; exact absurd rfl h
  | succ f ih =>
    intro a h
    rw [retryFrom]
    cases hc : call a with
    | some vs => simp
    | none =>
      by_cases hf : f = 0
      · simp [hf]
      · simp only [hf, ite_false, if_false]
        exact ih (a + 1) hf

theorem retryFrom_ok_some (call : Nat → Option (List Vec)) :
    ∀ fuel a vs, (retryFrom call a fuel).1 = .ok (some vs) →
      ∃ a2, call a2 = some vs := by
  intro fuel
  induction fuel with
  | zero => intro a vs h; simp [retryFrom] at h
  | succ f ih =>
    intro a vs h
    rw [retryFrom] at h
    cases hc : call a with
    | some ws =>
      rw [hc] at h
      simp at h
      exact ⟨a, by rw [hc, h]⟩
    | none =>
      rw [hc] at h
      by_cases hf : f = 0
      · simp [hf] at h
      · simp only [hf, ite_false, if_false] at h
        exact ih (a + 1) vs h

theorem processBatches_ok_length (oracle : EmbedOracle)
    (hlen : ∀ bi a b vs, oracle bi a b = some vs → vs.length = b.length) :
    ∀ batches bi r, (processBatches oracle 3 batches bi).1 = .ok r →
      r.length = batches.flatten.length := by
  intro batches
  induction batches with
  | nil =>
    intro bi r h
    simp [processBatches] at h
    simp [← h]
  | cons b rest ih =>
    intro bi r h
    rw [processBatches] at h
    cases hrf : retryFrom (fun a => oracle bi a b) 0 3 with
    | mk e1 s1 =>
      cases e1 with
      | error u =>
        rw [hrf] at h
        simp at h
      | ok oe =>
        cases oe with
        | none =>
          exfalso
          have hnf := retryFrom_no_fallthrough (fun a => oracle bi a b) 3 0 (by omega)
          rw [hrf] at hnf
          exact hnf rfl
        | some vs =>
          rw [hrf] at h
          dsimp only at h
          cases hrest : (processBatches oracle 3 rest (bi + 1)).1 with
          | error e2 =>
            rw [hrest] at h
            simp [Except.map] at h
          | ok r2 =>
            rw [hrest] at h
            simp [Except.map] at h
            have hvs : vs.length = b.length := by
              obtain ⟨a2, hc⟩ := retryFrom_ok_some (fun a => oracle bi a b) 3 0 vs
                (by rw [hrf])
              exact hlen bi a2 b vs hc
            have hr2 := ih (bi + 1) r2 hrest
            simp [← h, List.length_append, hvs, hr2, List.flatten]

theorem processBatches_map (oracle : EmbedOracle) (g : String → Vec)
    (hall : ∀ bi a b, oracle bi a b = some (b.map g)) :
    ∀ batches bi, processBatches oracle 3 batches bi = (.ok (batches.flatten.map g), []) := by
  intro batches
  induction batches with
  | nil => intro bi; simp [processBatches]
  | cons b rest ih =>
    intro bi
    rw [processBatches]
    have h1 : retryFrom (fun a => oracle bi a b) 0 3 = (.ok (some (b.map g)), []) :=
      retryFrom_ok (fun a => oracle bi a b) 0 0 3 (b.map g) (by omega)
        (fun k hk => absurd hk (Nat.not_lt_zero k)) (hall bi 0 b)
    rw [h1, ih (bi + 1)]
    simp [Except.map, List.flatten]

/-- C3: `batch_embed` partitions its input into consecutive sub-batches of at
most 32 texts; a sub-batch is attempted at most 3 times with sleeps of
`2 ^ attempt` units (1 then 2) between consecutive attempts; the error is
propagated only after the third attempt of a sub-batch has failed; and on
success the result holds exactly one embedding per input text, in input
order. -/
theorem claim_C3 (texts : List String) (oracle : EmbedOracle) :
    ((toBatches 32 texts).flatten = texts ∧
      ∀ b ∈ toBatches 32 texts, b.length ≤ 32 ∧ b ≠ []) ∧
    (∀ call : Nat → Option (List Vec), ∀ a0 vs, a0 < 3 →
      (∀ b, b < a0 → call b = none) → call a0 = some vs →
      retryFrom call 0 3 = (.ok (some vs), (List.range a0).map (fun k => 2 ^ k))) ∧
    (∀ call : Nat → Option (List Vec), (∀ a, a < 3 → call a = none) →
      retryFrom call 0 3 = (.error (), [1, 2])) ∧
    (∀ b rest, toBatches 32 texts = b :: rest → (∀ a, a < 3 → oracle 0 a b = none) →
      batch_embed texts oracle 32 3 = (.error (), [1, 2])) ∧
    ((∀ bi a b vs, oracle bi a b = some vs → vs.length = b.length) →
      ∀ r sleeps, batch_embed texts oracle 32 3 = (.ok r, sleeps) →
        r.length = texts.length) ∧
    (∀ g : String → Vec, (∀ bi a b, oracle bi a b = some (b.map g)) →
      batch_embed texts oracle 32 3 = (.ok (texts.map g), [])) := by
  have hjoin : (toBatches 32 texts).flatten = texts := toBatches_join 31 texts
  refine ⟨⟨hjoin, toBatches_mem 31 texts⟩, ?_, ?_, ?_, ?_, ?_⟩
  · intro call a0 vs h3 hnone hcall
    have := retryFrom_ok call a0 0 3 vs h3
      (fun b hb => by simpa using hnone b hb) (by simpa using hcall)
    rw [this]
    congr 1
    apply List.map_congr_left
    intro x hx
    simp
  · intro call hfail
    have := retryFrom_fail call 0 (fun b hb => by simpa using hfail b hb)
    simpa using this
  · intro b rest hbatches hfail
    unfold batch_embed
    rw [hbatches, processBatches]
    have := retryFrom_fail (fun a => oracle 0 a b) 0
      (fun k hk => by simpa using hfail k hk)
    rw [show retryFrom (fun a => oracle 0 a b) 0 3 = (.error (), [2 ^ 0, 2 ^ (0 + 1)])
      from this]
    norm_num
  · intro hlen r sleeps h
    have h1 : (processBatches oracle 3 (toBatches 32 texts) 0).1 = .ok r := by
      rw [show processBatches oracle 3 (toBatches 32 texts) 0 =
        batch_embed texts oracle 32 3 from rfl, h]
    have := processBatches_ok_length oracle hlen (toBatches 32 texts) 0 r h1
    rw [this, hjoin]
  · intro g hall
    unfold batch_embed
    rw [processBatches_map oracle g hall (toBatches 32 texts) 0, hjoin]

theorem claim_C3_witness :
    batch_embed ["alpha", "beta"] (fun _ _ b => some (b.map (fun _ => [0]))) 32 3 =
      (.ok [[0], [0]], []) := by
  have h := (claim_C3 ["alpha", "beta"] (fun _ _ b => some (b.map (fun _ => [0])))).2.2.2.2.2
    (fun _ => [0]) (fun _ _ _ => rfl)
  simpa using h

/-! ## Claim C2: completed only after the chunk insert succeeded -/

theorem statusOf_of_fresh (st : Store) (id : String)
    (h : ∀ d ∈ st.docs, d.id ≠ id) : statusOf st id = none := by
  unfold statusOf
  rw [List.find?_eq_none.mpr]
  · rfl
  · intro d hd
    simp [h d hd]

theorem chunkRows_length (did : String) (chunks : List Doc) (embs : List Vec) :
    (chunkRows did chunks embs).length = min chunks.length embs.length := by
  simp [chunkRows]

theorem find?_id_append_row (docs : List DocRow) (row : DocRow) (id : String)
    (h : ∀ d ∈ docs, d.id ≠ id) (hrow : row.id = id) :
    (docs ++ [row]).find? (fun d => d.id = id) = some row := by
  rw [List.find?_append]
  rw [List.find?_eq_none.mpr (fun d hd => by simp [h d hd])]
  simp [hrow]

/-- C2: in any run of `index_chunks`, the new document ends up `completed`
exactly when the whole run succeeded (embedding, chunk batch insert and
status update all succeeded); whenever it is `completed` its stored chunk
set is the full ordered split (indices 0, ..., n-1, contents in order), so
no reachable store state holds a `completed` document with missing or
partial chunks; pre-existing rows are never removed. -/
theorem statusOf_insert (st : Store) (newId filename file_type : String)
    (file_size : Nat) (content_hash : String)
    (hfreshd : ∀ d ∈ st.docs, d.id ≠ newId) :
    statusOf (insert_document st newId filename file_type file_size content_hash)
      newId = some .processing := by
  unfold statusOf insert_document
  dsimp only
  rw [find?_id_append_row st.docs _ newId hfreshd rfl]
  rfl

/-- C2: in any run of `index_chunks`, the new document ends up `completed`
exactly when the whole run succeeded (embedding, chunk batch insert and
status update all succeeded); whenever it is `completed` its stored chunk
set is the full ordered split (indices 0, ..., n-1, contents in order), so
no reachable store state holds a `completed` document with missing or
partial chunks; pre-existing rows are never removed. -/
theorem claim_C2 (st : Store) (newId filename file_type : String)
    (file_size : Nat) (content_hash : String) (chunks : List Doc)
    (oracle : EmbedOracle) (db : DbOracle)
    (res : Except AppErr (String × Nat)) (st2 : Store) (evs : List Ev)
    (hfreshd : ∀ d ∈ st.docs, d.id ≠ newId)
    (hfreshc : ∀ c ∈ st.chunks, c.document_id ≠ newId)
    (hlen : ∀ bi a b vs, oracle bi a b = some vs → vs.length = b.length)
    (hrun : index_chunks st newId filename file_type file_size content_hash
      chunks oracle db = (res, st2, evs)) :
    (statusOf st2 newId = some .completed ↔ res = .ok (newId, chunks.length)) ∧
    (statusOf st2 newId = some .completed →
      (chunksFor st2 newId).map (·.chunk_index) = List.range chunks.length ∧
      (chunksFor st2 newId).map (·.content) = chunks.map (·.page_content)) ∧
    (∀ d ∈ st.docs, d ∈ st2.docs) := by
  unfold index_chunks at hrun
  cases hget : get_document_by_hash st content_hash with
  | some eid =>
    rw [hget] at hrun
    dsimp only at hrun
    have hres : res = .ok (eid, 0) := (congrArg (fun p => p.1) hrun).symm
    have hst2 : st2 = st := (congrArg (fun p => p.2.1) hrun).symm
    rw [hres, hst2]
    have heid : eid ≠ newId := by
      unfold get_document_by_hash at hget
      cases hfind : List.find? (fun d => d.content_hash = content_hash) st.docs with
      | none => rw [hfind] at hget; cases hget
      | some drow =>
        rw [hfind] at hget
        simp at hget
        rw [← hget]
        exact hfreshd drow (List.mem_of_find?_eq_some hfind)
    have hstat : statusOf st newId = none := statusOf_of_fresh st newId hfreshd
    refine ⟨?_, ?_, fun d hd => hd⟩
    · constructor
      · intro h
        rw [hstat] at h
        cases h
      · intro h
        simp only [Except.ok.injEq, Prod.mk.injEq] at h
        exact absurd h.1 heid
    · intro h
      rw [hstat] at h
      cases h
  | none =>
    rw [hget] at hrun
    dsimp only at hrun
    by_cases hdoc : db.insertDocOk
    · rw [if_pos hdoc] at hrun
      cases hemb : (batch_embed (chunks.map (·.page_content)) oracle 32 3).1 with
      | error e =>
        rw [hemb] at hrun
        dsimp only at hrun
        have hres : res = .error .embeddingError := (congrArg (fun p => p.1) hrun).symm
        have hst2 : st2 = insert_document st newId filename file_type file_size
          content_hash := (congrArg (fun p => p.2.1) hrun).symm
        rw [hres, hst2]
        have hstat := statusOf_insert st newId filename file_type file_size
          content_hash hfreshd
        refine ⟨?_, ?_, fun d hd => List.mem_append_left _ hd⟩
        · constructor
          · intro h
            rw [hstat] at h
            cases h
          · intro h
            cases h
        · intro h
          rw [hstat] at h
          cases h
      | ok embeddings =>
        rw [hemb] at hrun
        dsimp only at hrun
        have hemblen : embeddings.length = chunks.length := by
          have h2 : (processBatches oracle 3
              (toBatches 32 (chunks.map (·.page_content))) 0).1 = .ok embeddings := hemb
          have := processBatches_ok_length oracle hlen
            (toBatches 32 (chunks.map (·.page_content))) 0 embeddings h2
          rw [this, toBatches_join 31 (chunks.map (·.page_content))]
          simp
        have hrowlen : (chunkRows newId chunks embeddings).length = chunks.length := by
          rw [chunkRows_length, hemblen, Nat.min_self]
        by_cases hins : db.insertChunksOk
        · rw [if_pos hins] at hrun
          by_cases hmark : db.markOk
          · rw [if_pos hmark] at hrun
            have hres : res = .ok (newId, (chunkRows newId chunks embeddings).length) :=
              (congrArg (fun p => p.1) hrun).symm
            have hst2 : st2 = mark_document_completed
                ⟨(insert_document st newId filename file_type file_size content_hash).docs,
                  st.chunks ++ chunkRows newId chunks embeddings⟩ newId :=
              (congrArg (fun p => p.2.1) hrun).symm
            rw [hres, hst2]
            have hstat : statusOf (mark_document_completed
                ⟨(insert_document st newId filename file_type file_size content_hash).docs,
                  st.chunks ++ chunkRows newId chunks embeddings⟩ newId) newId =
                some .completed := by
              unfold statusOf mark_document_completed insert_document
              dsimp only
              rw [List.find?_map]
              have hfind : List.find? ((fun d : DocRow => d.id = newId) ∘
                  (fun d => if d.id = newId then { d with status := .completed } else d))
                  (st.docs ++
                    [⟨newId, filename, file_type, file_size, content_hash, .processing⟩]) =
                  some ⟨newId, filename, file_type, file_size, content_hash,
                    .processing⟩ := by
                rw [List.find?_append]
                rw [List.find?_eq_none.mpr (fun d hd => by
                  simp only [Function.comp_apply]
                  by_cases hd2 : d.id = newId
                  · exact absurd hd2 (hfreshd d hd)
                  · simp [hd2])]
                simp
              rw [hfind]
              simp
            have hchunks : chunksFor (mark_document_completed
                ⟨(insert_document st newId filename file_type file_size content_hash).docs,
                  st.chunks ++ chunkRows newId chunks embeddings⟩ newId) newId =
                chunkRows newId chunks embeddings := by
              unfold chunksFor mark_document_completed
              dsimp only
              rw [List.filter_append]
              rw [List.filter_eq_nil_iff.mpr (fun c hc => by simp [hfreshc c hc])]
              rw [List.filter_eq_self.mpr (fun c hc => by
                simp [chunkRows_docid newId chunks embeddings c hc])]
              rfl
            refine ⟨?_, ?_, fun d hd => ?_⟩
            · rw [hstat, hrowlen]
              simp
            · intro _
              constructor
              · rw [hchunks, chunkRows_map_index, List.length_zip, hemblen, Nat.min_self]
              · rw [hchunks, chunkRows_map_content newId chunks embeddings (by omega)]
            · unfold mark_document_completed insert_document
              dsimp only
              rw [List.map_append]
              apply List.mem_append_left
              have hd2 : (fun d : DocRow =>
                  if d.id = newId then { d with status := DocStatus.completed } else d) d
                  = d := by
                simp [hfreshd d hd]
              rw [← hd2]
              exact List.mem_map_of_mem _ hd
          · rw [if_neg hmark] at hrun
            have hres : res = .error .databaseError := (congrArg (fun p => p.1) hrun).symm
            have hst2 : st2 =
                ⟨(insert_document st newId filename file_type file_size content_hash).docs,
                  st.chunks ++ chunkRows newId chunks embeddings⟩ :=
              (congrArg (fun p => p.2.1) hrun).symm
            rw [hres, hst2]
            have hstat : statusOf
                (⟨(insert_document st newId filename file_type file_size content_hash).docs,
                  st.chunks ++ chunkRows newId chunks embeddings⟩ : Store) newId =
                some .processing :=
              statusOf_insert st newId filename file_type file_size content_hash hfreshd
            refine ⟨?_, ?_, fun d hd => List.mem_append_left _ hd⟩
            · constructor
              · intro h
                rw [hstat] at h
                cases h
              · intro h
                cases h
            · intro h
              rw [hstat] at h
              cases h
        · rw [if_neg hins] at hrun
          have hres : res = .error .databaseError := (congrArg (fun p => p.1) hrun).symm
          have hst2 : st2 = insert_document st newId filename file_type file_size
            content_hash := (congrArg (fun p => p.2.1) hrun).symm
          rw [hres, hst2]
          have hstat := statusOf_insert st newId filename file_type file_size
            content_hash hfreshd
          refine ⟨?_, ?_, fun d hd => List.mem_append_left _ hd⟩
          · constructor
            · intro h
              rw [hstat] at h
              cases h
            · intro h
              cases h
          · intro h
            rw [hstat] at h
            cases h
    · rw [if_neg hdoc] at hrun
      have hres : res = .error .databaseError := (congrArg (fun p => p.1) hrun).symm
      have hst2 : st2 = st := (congrArg (fun p => p.2.1) hrun).symm
      rw [hres, hst2]
      have hstat : statusOf st newId = none := statusOf_of_fresh st newId hfreshd
      refine ⟨?_, ?_, fun d hd => hd⟩
      · constructor
        · intro h
          rw [hstat] at h
          cases h
        · intro h
          cases h
      · intro h
        rw [hstat] at h
        cases h

theorem claim_C2_witness :
    statusOf (index_chunks ⟨[], []⟩ "doc-1" "a.txt" "txt" 3 "H"
        [⟨"hello", []⟩] (fun _ _ b => some (b.map (fun _ => [0]))) ⟨true, true, true⟩).2.1
      "doc-1" = some .completed := by
  have h := claim_C2 ⟨[], []⟩ "doc-1" "a.txt" "txt" 3 "H" [⟨"hello", []⟩]
    (fun _ _ b => some (b.map (fun _ => [0]))) ⟨true, true, true⟩
    (index_chunks ⟨[], []⟩ "doc-1" "a.txt" "txt" 3 "H"
      [⟨"hello", []⟩] (fun _ _ b => some (b.map (fun _ => [0]))) ⟨true, true, true⟩).1
    (index_chunks ⟨[], []⟩ "doc-1" "a.txt" "txt" 3 "H"
      [⟨"hello", []⟩] (fun _ _ b => some (b.map (fun _ => [0]))) ⟨true, true, true⟩).2.1
    (index_chunks ⟨[], []⟩ "doc-1" "a.txt" "txt" 3 "H"
      [⟨"hello", []⟩] (fun _ _ b => some (b.map (fun _ => [0]))) ⟨true, true, true⟩).2.2
    (by simp) (by simp) (fun bi a b vs hv => by
      simp only [Option.some.injEq] at hv
      rw [← hv]
      simp) rfl
  apply h.1.mpr
  rfl

/-! ## Claim C1: dedup short-circuit in the upload pipeline -/

theorem process_upload_dup (file : UploadFile) (fname : String) (maxFileSize : Nat)
    (hashFn : List Nat → String) (loader : List Nat → List Doc)
    (splitterF : Nat → Nat → Doc → List Doc) (baseChunk overlap minChars : Nat)
    (oracle : EmbedOracle) (db : DbOracle) (newId : String) (st : Store) (eid : String)
    (hfn : file.filename = some fname) (hne : fname ≠ "")
    (hval : validate_extension (sanitize_filename fname) = true)
    (hsz : file.contents.length ≤ maxFileSize) (hnz : file.contents ≠ [])
    (hdup : get_document_by_hash st (hashFn file.contents) = some eid) :
    process_upload file maxFileSize hashFn loader splitterF baseChunk overlap minChars
      oracle db newId st =
      (.ok (eid, 0, sanitize_filename fname), st, [.load, .chunk]) := by
  have h1 : ¬ (maxFileSize < file.contents.length) := Nat.not_lt.mpr hsz
  have h2 : ¬ (file.contents.length = 0) := fun h =>
    hnz (List.eq_nil_of_length_eq_zero h)
  have hic : index_chunks st newId (sanitize_filename fname)
      (fileTypeOf (sanitize_filename fname)) file.contents.length (hashFn file.contents)
      (split_documents splitterF (loader file.contents) baseChunk overlap minChars)
      oracle db = (.ok (eid, 0), st, []) := by
    unfold index_chunks
    rw [hdup]
  unfold process_upload
  rw [hfn]
  dsimp only
  rw [if_neg hne]
  simp only [hval, Bool.not_true, Bool.false_eq_true, if_false]
  rw [if_neg h1, if_neg h2, hic]

theorem index_chunks_ok_hash (st : Store) (newId fn ft : String) (fs : Nat)
    (content_hash : String) (chunks : List Doc) (oracle : EmbedOracle) (db : DbOracle)
    (p : String × Nat) (icst : Store) (icevs : List Ev)
    (hnone : get_document_by_hash st content_hash = none)
    (hic : index_chunks st newId fn ft fs content_hash chunks oracle db =
      (.ok p, icst, icevs)) :
    p.1 = newId ∧ get_document_by_hash icst content_hash = some newId := by
  have hnodoc : ∀ d ∈ st.docs, ¬ (d.content_hash = content_hash) := by
    unfold get_document_by_hash at hnone
    intro d hd
    have := List.find?_eq_none.mp (by
      cases hfind : List.find? (fun x => x.content_hash = content_hash) st.docs with
      | none => rfl
      | some w => rw [hfind] at hnone; cases hnone) d hd
    simpa using this
  unfold index_chunks at hic
  rw [hnone] at hic
  dsimp only at hic
  by_cases hdoc : db.insertDocOk
  · rw [if_pos hdoc] at hic
    cases hemb : (batch_embed (chunks.map (·.page_content)) oracle 32 3).1 with
    | error e =>
      rw [hemb] at hic
      dsimp only at hic
      exact absurd (congrArg (fun t => t.1) hic) (by simp)
    | ok embs =>
      rw [hemb] at hic
      dsimp only at hic
      by_cases hins : db.insertChunksOk
      · rw [if_pos hins] at hic
        by_cases hmark : db.markOk
        · rw [if_pos hmark] at hic
          have hp : p = (newId, (chunkRows newId chunks embs).length) := by
            have := congrArg (fun t => t.1) hic
            simp only at this
            exact (Except.ok.injEq _ _ ▸ this :).symm
          have hicst : icst = mark_document_completed
              ⟨(insert_document st newId fn ft fs content_hash).docs,
                st.chunks ++ chunkRows newId chunks embs⟩ newId :=
            (congrArg (fun t => t.2.1) hic).symm
          constructor
          · rw [hp]
          · rw [hicst]
            unfold get_document_by_hash mark_document_completed insert_document
            dsimp only
            rw [List.find?_map]
            have hfind : List.find? ((fun d : DocRow => d.content_hash = content_hash) ∘
                (fun d => if d.id = newId then { d with status := .completed } else d))
                (st.docs ++ [⟨newId, fn, ft, fs, content_hash, .processing⟩]) =
                some ⟨newId, fn, ft, fs, content_hash, .processing⟩ := by
              rw [List.find?_append]
              rw [List.find?_eq_none.mpr (fun d hd => by
                simp only [Function.comp_apply]
                by_cases hd2 : d.id = newId
                · simp [hd2, hnodoc d hd]
                · simp [hd2, hnodoc d hd])]
              simp
            rw [hfind]
            simp
        · rw [if_neg hmark] at hic
          exact absurd (congrArg (fun t => t.1) hic) (by simp)
      · rw [if_neg hins] at hic
        exact absurd (congrArg (fun t => t.1) hic) (by simp)
  · rw [if_neg hdoc] at hic
    exact absurd (congrArg (fun t => t.1) hic) (by simp)

/-- C1, counterexample: with a document of the same content hash already in
the store, `process_upload` does return the existing id with zero chunks
indexed, but the event trace of the run contains `.load` and `.chunk`: the
loader and the splitter run again on the duplicate upload, because the
dedup check happens inside `index_chunks`, after load and split. -/
theorem claim_C1_counterexample :
    process_upload ⟨some "a.txt", [1]⟩ 100 (fun _ => "H")
        (fun _ => [⟨"0123456789", []⟩]) (fun _ _ x => [x]) 800 100 3
        (fun _ _ _ => none) ⟨true, true, true⟩ "doc-new"
        ⟨[⟨"doc-0", "a.txt", "txt", 1, "H", .completed⟩], []⟩ =
      (.ok ("doc-0", 0, "a.txt"),
        ⟨[⟨"doc-0", "a.txt", "txt", 1, "H", .completed⟩], []⟩, [.load, .chunk]) ∧
    Ev.load ∈ [Ev.load, Ev.chunk] ∧ Ev.chunk ∈ [Ev.load, Ev.chunk] :=
  ⟨rfl, by decide, by decide⟩

/-- C1, amended: when the uploaded bytes hash to an already-stored document,
`process_upload` returns the existing document id with zero chunks indexed
and an unchanged store, and the embedding model is never invoked — but the
loader and the splitter do run again (events `.load` and `.chunk`).
Moreover ingesting the same bytes twice returns the same document id both
times, the second call with zero newly-indexed chunks. -/
theorem claim_C1 :
    (∀ (file : UploadFile) (fname : String) (maxFileSize : Nat)
        (hashFn : List Nat → String) (loader : List Nat → List Doc)
        (splitterF : Nat → Nat → Doc → List Doc) (baseChunk overlap minChars : Nat)
        (oracle : EmbedOracle) (db : DbOracle) (newId : String) (st : Store)
        (eid : String),
      file.filename = some fname → fname ≠ "" →
      validate_extension (sanitize_filename fname) = true →
      file.contents.length ≤ maxFileSize → file.contents ≠ [] →
      get_document_by_hash st (hashFn file.contents) = some eid →
      process_upload file maxFileSize hashFn loader splitterF baseChunk overlap
        minChars oracle db newId st =
        (.ok (eid, 0, sanitize_filename fname), st, [.load, .chunk])) ∧
    (∀ (file : UploadFile) (maxFileSize : Nat) (hashFn : List Nat → String)
        (loader : List Nat → List Doc) (splitterF : Nat → Nat → Doc → List Doc)
        (baseChunk overlap minChars : Nat) (oracle : EmbedOracle) (db : DbOracle)
        (newId : String) (st : Store) (d f : String) (n : Nat) (st1 : Store)
        (evs : List Ev) (oracle2 : EmbedOracle) (db2 : DbOracle) (newId2 : String),
      get_document_by_hash st (hashFn file.contents) = none →
      process_upload file maxFileSize hashFn loader splitterF baseChunk overlap
        minChars oracle db newId st = (.ok (d, n, f), st1, evs) →
      process_upload file maxFileSize hashFn loader splitterF baseChunk overlap
        minChars oracle2 db2 newId2 st1 =
        (.ok (d, 0, f), st1, [.load, .chunk])) := by
  refine ⟨process_upload_dup, ?_⟩
  intro file maxFileSize hashFn loader splitterF baseChunk overlap minChars oracle db
    newId st d f n st1 evs oracle2 db2 newId2 hnone hrun
  cases hfn : file.filename with
  | none =>
    rw [process_upload, hfn] at hrun
    exact absurd (congrArg (fun t => t.1) hrun) (by simp)
  | some fname =>
    rw [process_upload, hfn] at hrun
    dsimp only at hrun
    by_cases hne : fname = ""
    · rw [if_pos hne] at hrun
      exact absurd (congrArg (fun t => t.1) hrun) (by simp)
    · rw [if_neg hne] at hrun
      by_cases hval : validate_extension (sanitize_filename fname) = true
      · simp only [hval, Bool.not_true, Bool.false_eq_true, if_false] at hrun
        by_cases hsz : maxFileSize < file.contents.length
        · rw [if_pos hsz] at hrun
          exact absurd (congrArg (fun t => t.1) hrun) (by simp)
        · rw [if_neg hsz] at hrun
          by_cases hz : file.contents.length = 0
          · rw [if_pos hz] at hrun
            exact absurd (congrArg (fun t => t.1) hrun) (by simp)
          · rw [if_neg hz] at hrun
            rcases hic : index_chunks st newId (sanitize_filename fname)
                (fileTypeOf (sanitize_filename fname)) file.contents.length
                (hashFn file.contents)
                (split_documents splitterF (loader file.contents) baseChunk overlap
                  minChars) oracle db with ⟨icres, icst, icevs⟩
            rw [hic] at hrun
            dsimp only at hrun
            cases icres with
            | error e =>
              exact absurd (congrArg (fun t => t.1) hrun) (by simp)
            | ok p =>
              have hd : d = p.1 ∧ n = p.2 ∧ f = sanitize_filename fname := by
                have := congrArg (fun t => t.1) hrun
                simp only [Except.ok.injEq, Prod.mk.injEq] at this
                exact ⟨this.1.symm, this.2.1.symm, this.2.2.symm⟩
              have hst1 : st1 = icst := (congrArg (fun t => t.2.1) hrun).symm
              obtain ⟨hp1, hhash⟩ := index_chunks_ok_hash st newId
                (sanitize_filename fname) (fileTypeOf (sanitize_filename fname))
                file.contents.length (hashFn file.contents) _ oracle db p icst icevs
                hnone hic
              rw [hd.1, hd.2.2, hp1, hst1]
              exact process_upload_dup file fname maxFileSize hashFn loader splitterF
                baseChunk overlap minChars oracle2 db2 newId2 icst newId hfn hne hval
                (Nat.not_lt.mp hsz) (fun h => hz (by rw [h]; rfl)) hhash
      · simp only [Bool.not_eq_true] at hval
        simp only [hval, Bool.not_false, if_true] at hrun
        exact absurd (congrArg (fun t => t.1) hrun) (by simp)

theorem claim_C1_witness :
    process_upload ⟨some "b.pdf", [2, 3]⟩ 100 (fun _ => "H2")
        (fun _ => [⟨"0123456789", []⟩]) (fun _ _ x => [x]) 800 100 3
        (fun _ _ _ => none) ⟨true, true, true⟩ "doc-new"
        ⟨[⟨"doc-7", "b.pdf", "pdf", 2, "H2", .completed⟩], []⟩ =
      (.ok ("doc-7", 0, sanitize_filename "b.pdf"),
        ⟨[⟨"doc-7", "b.pdf", "pdf", 2, "H2", .completed⟩], []⟩, [.load, .chunk]) :=
  claim_C1.1 ⟨some "b.pdf", [2, 3]⟩ "b.pdf" 100 (fun _ => "H2")
    (fun _ => [⟨"0123456789", []⟩]) (fun _ _ x => [x]) 800 100 3
    (fun _ _ _ => none) ⟨true, true, true⟩ "doc-new"
    ⟨[⟨"doc-7", "b.pdf", "pdf", 2, "H2", .completed⟩], []⟩ "doc-7"
    rfl (by decide) (by decide) (by decide) (by decide) rfl

end Documindr
